import Mathlib

/-!
# Verification of the plunder allocation engines (`mode1.py`, `mode2.py`)

Shallow embedding of the two allocation engines of the repository.

Machine numbers are modelled as follows: Python `int` values become `ℤ`
(or `ℕ` for counts), Python `float` arithmetic on money/ratios is modelled
exactly with `ℚ` (the repository's own tests use integer money values, for
which the float computations are exact in the ranges exercised here).
`int(x)` (truncation toward zero) and `int(x + 0.5)` (round half up for
non-negative `x`) are modelled by `pyInt` and `pyRound`.

The binary search tree (`data_structures/bst.py`), the max-heap
(`data_structures/heap.py`), the `Island` record (`island.py`) and the
`mergesort` routine (`algorithms/mergesort.py`) are not part of the
provided sources; they are modelled from the spec where needed, as noted
on each definition.
-/

namespace Plunder

/-- The target record (`island.py`, not in the provided sources).
Modelled from the spec: `{id: string, yield: float ≥ 0, defenders: int}`,
with `money` the yield and `marines` the defender count. -/
structure Island where
  name : String
  money : ℚ
  marines : ℤ
  deriving DecidableEq, Repr

/-- The priority metric `money / marines` (yield per defender). -/
def Island.ratio (i : Island) : ℚ := i.money / i.marines

/-- Python `int(q)`: truncation toward zero. -/
def pyInt (q : ℚ) : ℤ := if 0 ≤ q then ⌊q⌋ else ⌈q⌉

/-- Python `int(q + 0.5)`: round half up for non-negative `q`. -/
def pyRound (q : ℚ) : ℤ := pyInt (q + 1/2)

/-- Plunder of one engagement: `int(min(crew*money/marines, money) + 0.5)`
(`mode1.py` line 117, `mode2.py` line 85). -/
def engagePlunder (crew : ℤ) (m : ℚ) (d : ℤ) : ℤ :=
  pyRound (min ((crew : ℚ) * m / (d : ℚ)) m)

/-! ## The ordered ratio store (`data_structures/bst.py`)

Modelled from the spec: a key-ordered mapping `ratio → Island` with
`insert`, `delete`-by-key and a descending (right-node-left) traversal.
The spec leaves duplicate-key behaviour open (§9); we pick the
deterministic dictionary-style resolution: inserting an existing key
overwrites its entry, so keys are unique and the store is a strictly
ascending association list. The descending traversal is its reverse. -/

abbrev Store := List (ℚ × Island)

/-- Modelled from the spec: `insert(key, target)` into the key-ordered
store; an existing equal key is overwritten. -/
def storeInsert : Store → ℚ → Island → Store
  | [], k, v => [(k, v)]
  | (k', v') :: rest, k, v =>
    if k < k' then (k, v) :: (k', v') :: rest
    else if k = k' then (k, v) :: rest
    else (k', v') :: storeInsert rest k v

/-- Modelled from the spec: `delete(key)` removes the entry with that
exact key (claims only use it on keys that are present). -/
def storeDelete : Store → ℚ → Store
  | [], _ => []
  | (k', v') :: rest, k =>
    if k = k' then rest else (k', v') :: storeDelete rest k

/-- Modelled from the spec: lookup of the target stored under a key
(the first entry with that key; keys are unique on sorted stores). -/
def storeLookup : Store → ℚ → Option Island
  | [], _ => none
  | (k', v') :: rest, k => if k' = k then some v' else storeLookup rest k

/-- Modelled from the spec: the descending (right-node-left) traversal of
the store — the targets in strictly decreasing key order. -/
def descend (s : Store) : List Island := s.reverse.map Prod.snd

/-- `Mode1Navigator.__init__` (`mode1.py` lines 40-43): index every island
under the key `island.money / island.marines`. -/
def buildStore (islands : List Island) : Store :=
  islands.foldl (fun s i => storeInsert s (i.money / i.marines) i) []

/-- The store invariant: keys strictly ascending. -/
def StoreSorted (s : Store) : Prop := s.Pairwise (fun a b => a.1 < b.1)

/-- The store invariant: every entry is keyed by its island's ratio. -/
def StoreKeyed (s : Store) : Prop := ∀ p ∈ s, p.1 = p.2.ratio

/-! ## `Mode1Navigator.select_islands` (`mode1.py` lines 62-71) -/

/-- The loop of `select_islands`: visit islands in descending ratio order,
send `min(remaining crew, marines)` to each, append the pair before
checking exhaustion, stop once the remaining crew is `≤ 0`. -/
def selectIslandsGo (crew : ℤ) : List Island → List (Island × ℤ)
  | [] => []
  | isl :: rest =>
    let take := min crew isl.marines
    (isl, take) :: (if crew - take ≤ 0 then [] else selectIslandsGo (crew - take) rest)

/-- `Mode1Navigator.select_islands` over a store state and the configured
crew pool. -/
def select_islands (store : Store) (crew : ℤ) : List (Island × ℤ) :=
  selectIslandsGo crew (descend store)

/-! ## `Mode1Navigator.select_islands_from_crew_numbers`
(`mode1.py` lines 96-146)

The sweep state mirrors the Python locals: `cur` is
`crew_numbers[i][0]` (remaining crew of the request being processed),
`curIdx` its original position, `acc` is `res[i]`, `pending` the
requests after position `i`, `done` the finished `(res value, original
position)` pairs in sorted order, and `used` is `crew_used`. The `while`
loop is given explicit fuel; `none` models a Python `ZeroDivisionError`
(local marines hitting zero with money still positive) or fuel
exhaustion, neither of which occurs on the runs the claims evaluate. -/

structure SweepState where
  cur : ℤ
  curIdx : ℕ
  acc : ℤ
  pending : List (ℤ × ℕ)
  done : List (ℤ × ℕ)
  used : ℤ
  deriving DecidableEq, Repr

/-- The inner `while` loop (`mode1.py` lines 115-132) on one island with
local money `m` and local marines `d`. Returns the state and the
`complete_break` flag. -/
def islandLoop : ℕ → ℚ → ℤ → SweepState → Option (SweepState × Bool)
  | 0, _, _, _ => none
  | Nat.succ f, m, d, st =>
    if 0 ≤ st.cur ∧ 0 < m then
      if d = 0 then none
      else
        if st.cur - min st.cur d ≤ 0 then
          match st.pending with
          | [] =>
            some ({ st with
                    cur := st.cur - min st.cur d,
                    acc := st.acc + engagePlunder st.cur m d,
                    used := st.used + min st.cur d,
                    done := st.done ++ [(st.acc + engagePlunder st.cur m d, st.curIdx)] },
              true)
          | (s, j) :: ps =>
            islandLoop f (m - engagePlunder st.cur m d) (d - min st.cur d)
              { cur := s - (st.used + min st.cur d), curIdx := j,
                acc := st.acc + engagePlunder st.cur m d,
                pending := ps,
                done := st.done ++ [(st.acc + engagePlunder st.cur m d, st.curIdx)],
                used := st.used + min st.cur d }
        else
          islandLoop f (m - engagePlunder st.cur m d) (d - min st.cur d)
            { st with
              cur := st.cur - min st.cur d,
              acc := st.acc + engagePlunder st.cur m d,
              used := st.used + min st.cur d }
    else some (st, false)

/-- The outer `for island in it` loop (`mode1.py` lines 113-135). -/
def sweepIslands (fuel : ℕ) : List Island → SweepState → Option (SweepState × Bool)
  | [], st => some (st, false)
  | isl :: rest, st =>
    match islandLoop fuel isl.money isl.marines st with
    | none => none
    | some (st', b) => if b then some (st', true) else sweepIslands fuel rest st'

/-- The `(value, original position)` pairs produced by the sweep: on a
`complete_break` the `done` list is already complete; otherwise the
current request keeps its partial total and every pending request is
padded with the same value (`mode1.py` line 137). -/
def finalPairs (st : SweepState) (broke : Bool) : List (ℤ × ℕ) :=
  if broke then st.done
  else st.done ++ [(st.acc, st.curIdx)] ++ st.pending.map (fun p => (st.acc, p.2))

/-- The remap of results to the original request order
(`mode1.py` lines 140-144). -/
def remap (n : ℕ) (pairs : List (ℤ × ℕ)) : List ℤ :=
  pairs.foldl (fun out vj => out.set vj.2 vj.1) (List.replicate n 0)

/-- `Mode1Navigator.select_islands_from_crew_numbers`: tag each request
with its original position, sort (stably, by size) only when some
adjacent pair strictly decreases, run the sweep over the descending
island traversal, pad, and remap. `mergesort` is not in the provided
sources; modelled from the spec as a stable sort by size
(`List.mergeSort` is stable). -/
def select_islands_from_crew_numbers (fuel : ℕ) (store : Store) (crews : List ℤ) :
    Option (List ℤ) :=
  if crews = [] then some [] else
  let tagged := crews.enum.map (fun p => (p.2, p.1))
  let sorted := if tagged.Chain' (fun a b => a.1 ≤ b.1) then tagged
                else tagged.mergeSort (fun a b => decide (a.1 ≤ b.1))
  match sorted with
  | [] => some []
  | (s, j) :: ps =>
    match sweepIslands fuel (descend store) ⟨s, j, 0, ps, [], 0⟩ with
    | none => none
    | some (st, broke) => some (remap crews.length (finalPairs st broke))

/-- Follows the spec's words (for comparison with the sweep): the plunder
a single crew of the given size, acting alone, extracts by greedily
attacking targets in descending ratio order against the fully-restocked
target set: per target, plunder is the nearest integer (round half up) to
`min(crew*yield/defenders, yield)` and `min(crew, defenders)` crew are
engaged; the crew moves on until it is exhausted or targets run out. -/
def greedyAloneSpec (crew : ℤ) : List Island → ℤ
  | [] => 0
  | isl :: rest =>
    if crew ≤ 0 then 0
    else engagePlunder crew isl.money isl.marines +
      greedyAloneSpec (crew - min crew isl.marines) rest

/-! ## `Mode1Navigator.update_island` (`mode1.py` lines 166-170) -/

/-- `update_island`: delete the old key `island.money / island.marines`,
mutate the fields, insert under the new key `new_money / new_marines`. -/
def update_island (store : Store) (island : Island)
    (newMoney : ℚ) (newMarines : ℤ) : Store :=
  storeInsert (storeDelete store (island.money / island.marines))
    (newMoney / newMarines)
    { island with money := newMoney, marines := newMarines }

/-! ## `Mode2Navigator` (`mode2.py`)

The max-heap (`data_structures/heap.py`) and the island comparison it
uses are not in the provided sources. Modelled from the spec: the heap's
priority of a target is the yield obtainable by an attacker with exactly
`crewPerAgent` crew, `min(crew*yield/defenders, yield)`; `get_max`
extracts a maximum-priority element (ties resolved deterministically in
favour of the earlier element — the spec leaves ties open and no claim
depends on the choice). The heap is modelled as the list of its
elements. The result pair records the island's state at selection time
(the Python code aliases the island object, which is mutated afterward).
-/

/-- Modelled from the spec: the heap priority of a target for a given
per-agent crew, `min(crew*yield/defenders, yield)`. -/
def mode2Priority (crew : ℤ) (isl : Island) : ℚ :=
  min ((crew : ℚ) * isl.money / (isl.marines : ℚ)) isl.money

/-- Modelled from the spec: `get_max` — remove and return a
maximum-priority element (first such element on ties). -/
def extractMax (crew : ℤ) : List Island → Option (Island × List Island)
  | [] => none
  | x :: xs =>
    match extractMax crew xs with
    | none => some (x, [])
    | some (m, rest) =>
      if mode2Priority crew x < mode2Priority crew m then some (m, x :: rest)
      else some (x, xs)

/-- One agent's turn (`mode2.py` lines 83-92): if the heap is non-empty
and `crew > 0`, extract the max, engage it, and reinsert it only when it
still has `marines > 0` and ratio `> 2`; otherwise `(none, 0)`. Returns
the agent's pair and the new heap. -/
def agentStep (crew : ℤ) (heap : List Island) : (Option Island × ℤ) × List Island :=
  if 0 < crew then
    match extractMax crew heap with
    | none => ((none, 0), heap)
    | some (isl, rest) =>
      let plunder := engagePlunder crew isl.money isl.marines
      let fight := min crew isl.marines
      let isl' : Island :=
        { isl with money := isl.money - plunder, marines := isl.marines - fight }
      ((some isl, fight),
        if 0 < isl'.marines ∧ 2 < isl'.money / (isl'.marines : ℚ) then isl' :: rest else rest)
  else ((none, 0), heap)

/-- The per-agent loop of `simulate_day`: one pair per agent, in agent
order, threading the heap state. -/
def simGo (crew : ℤ) : ℕ → List Island → List (Option Island × ℤ)
  | 0, _ => []
  | Nat.succ n, heap => (agentStep crew heap).1 :: simGo crew n (agentStep crew heap).2

/-- The initial filter of `simulate_day` (`mode2.py` line 76): keep only
targets with `marines > 0` and ratio `> 2`. -/
def mode2Filter (islands : List Island) : List Island :=
  islands.filter (fun i => decide (0 < i.marines ∧ 2 < i.money / (i.marines : ℚ)))

/-- `Mode2Navigator.simulate_day` for a pirate count fixed at
construction, the accumulated island collection and a per-agent crew. -/
def simulate_day (nPirates : ℕ) (islands : List Island) (crew : ℤ) :
    List (Option Island × ℤ) :=
  simGo crew nPirates (mode2Filter islands)

/-- The heap state reached after the first `k` agents of a day. -/
def heapIter (crew : ℤ) : ℕ → List Island → List Island
  | 0, h => h
  | Nat.succ k, h => heapIter crew k (agentStep crew h).2

/-! ## Basic facts and helper lemmas -/

/-- Each returned `crewSent` of `select_islands` equals
`min(remaining crew, that target's defenders)`: the checker recomputes
the greedy assignment along the returned list. -/
def sentOk (crew : ℤ) : List (Island × ℤ) → Bool
  | [] => true
  | (isl, c) :: rest => decide (c = min crew isl.marines) && sentOk (crew - c) rest

theorem engagePlunder_nonneg {c : ℤ} {m : ℚ} {d : ℤ}
    (hc : 0 ≤ c) (hm : 0 < m) (hd : 0 < d) : 0 ≤ engagePlunder c m d := by
  have hq : (0 : ℚ) ≤ min ((c : ℚ) * m / (d : ℚ)) m := by
    apply le_min
    · apply div_nonneg (mul_nonneg (by exact_mod_cast hc) hm.le)
      exact_mod_cast hd.le
    · exact hm.le
  have h2 : (0 : ℚ) ≤ min ((c : ℚ) * m / (d : ℚ)) m + 1/2 := by linarith
  unfold engagePlunder pyRound pyInt
  rw [if_pos h2]
  exact Int.le_floor.mpr (by exact_mod_cast h2)

theorem simGo_nonpos (crew : ℤ) (hc : crew ≤ 0) :
    ∀ (n : ℕ) (heap : List Island), simGo crew n heap = List.replicate n (none, 0) := by
  intro n
  induction n with
  | zero => intro heap; rfl
  | succ k ih =>
    intro heap
    have hstep : agentStep crew heap = ((none, 0), heap) := by
      unfold agentStep
      rw [if_neg (by omega)]
    simp [simGo, hstep, ih, List.replicate_succ]

/-! ## C9: empty request list -/

/-- C9: `select_islands_from_crew_numbers` applied to the empty list of
crew sizes returns the empty list, immediately and regardless of the
target set (and of the fuel given to the loop). -/
theorem select_for_sizes_empty (fuel : ℕ) (store : Store) :
    select_islands_from_crew_numbers fuel store [] = some [] := rfl

/-! ## C1: the batch solver is not size-independent

On the single target `(money = 1, marines = 4)` the request list `[1, 2]`
yields `[0, 0]`, although the singleton request `[2]` yields `[1]` and the
spec's independent greedy evaluation of a crew of 2 against the restocked
set extracts `1`. The rounding applied at each intermediate engagement of
the shared-prefix sweep makes larger requests depend on the smaller
requests processed before them. -/

set_option maxHeartbeats 4000000 in
/-- C1: on the target set `[("X", 1, 4)]`, the code's result for crew
size 2 is `0` when requested together with size 1, while requesting it
alone yields `1` — which is also what the spec's independent descending
greedy (round half up) extracts. So an entry of the result is not the
plunder of that crew acting alone, and does depend on the other
requested sizes. -/
theorem sweep_not_independent_eval :
    select_islands_from_crew_numbers 16 (buildStore [⟨"X", 1, 4⟩]) [1, 2] = some [0, 0] ∧
    select_islands_from_crew_numbers 16 (buildStore [⟨"X", 1, 4⟩]) [2] = some [1] ∧
    greedyAloneSpec 2 (descend (buildStore [⟨"X", 1, 4⟩])) = 1 := by
  refine ⟨?_, ?_, ?_⟩
  · norm_num [select_islands_from_crew_numbers, buildStore, storeInsert, descend, sweepIslands,
      islandLoop, engagePlunder, pyRound, pyInt, finalPairs, remap, List.enum, List.enumFrom,
      List.replicate]
    all_goals (intro h; simp at h)
  · norm_num [select_islands_from_crew_numbers, buildStore, storeInsert, descend, sweepIslands,
      islandLoop, engagePlunder, pyRound, pyInt, finalPairs, remap, List.enum, List.enumFrom,
      List.replicate]
  · norm_num [greedyAloneSpec, buildStore, storeInsert, descend, engagePlunder, pyRound, pyInt]

/-! ## C7: negative crew is silently absorbed, not rejected -/

/-- C7 counterexample: with the single target `("A", 7, 2)`, a crew pool
of `-5` makes `select_islands` return the ordinary pair list
`[(A, -5)]`, and `simulate_day` with a per-agent crew of `-1` returns the
ordinary list `[(none, 0), (none, 0)]`: neither operation signals a
contract violation. -/
theorem negative_crew_cex :
    select_islands (buildStore [⟨"A", 7, 2⟩]) (-5) = [(⟨"A", 7, 2⟩, -5)] ∧
    simulate_day 2 [⟨"A", 7, 2⟩] (-1) = [(none, 0), (none, 0)] := by
  refine ⟨by decide, by decide⟩

/-! ## Store lemmas -/

theorem mem_storeInsert {s : Store} {k : ℚ} {v : Island} {p : ℚ × Island}
    (h : p ∈ storeInsert s k v) : p = (k, v) ∨ p ∈ s := by
  induction s with
  | nil => simpa [storeInsert] using h
  | cons q rest ih =>
    obtain ⟨k', v'⟩ := q
    by_cases h1 : k < k'
    · simp only [storeInsert, if_pos h1] at h
      rcases List.mem_cons.mp h with h | h
      · exact Or.inl h
      · exact Or.inr h
    · by_cases h2 : k = k'
      · simp only [storeInsert, if_neg h1, if_pos h2] at h
        rcases List.mem_cons.mp h with h | h
        · exact Or.inl h
        · exact Or.inr (List.mem_cons_of_mem _ h)
      · simp only [storeInsert, if_neg h1, if_neg h2] at h
        rcases List.mem_cons.mp h with h | h
        · exact Or.inr (h ▸ List.mem_cons_self _ _)
        · rcases ih h with h | h
          · exact Or.inl h
          · exact Or.inr (List.mem_cons_of_mem _ h)

theorem storeInsert_sorted {s : Store} (k : ℚ) (v : Island) (hs : StoreSorted s) :
    StoreSorted (storeInsert s k v) := by
  induction s with
  | nil => simp [storeInsert, StoreSorted]
  | cons q rest ih =>
    obtain ⟨k', v'⟩ := q
    rw [StoreSorted, List.pairwise_cons] at hs
    obtain ⟨hhead, hrest⟩ := hs
    by_cases h1 : k < k'
    · simp only [storeInsert, if_pos h1]
      rw [StoreSorted, List.pairwise_cons]
      refine ⟨fun p hp => ?_, List.pairwise_cons.mpr ⟨hhead, hrest⟩⟩
      rcases List.mem_cons.mp hp with hp | hp
      · rw [hp]; exact h1
      · exact h1.trans (hhead p hp)
    · by_cases h2 : k = k'
      · simp only [storeInsert, if_neg h1, if_pos h2]
        rw [StoreSorted, List.pairwise_cons]
        exact ⟨fun p hp => by rw [h2]; exact hhead p hp, hrest⟩
      · simp only [storeInsert, if_neg h1, if_neg h2]
        rw [StoreSorted, List.pairwise_cons]
        refine ⟨fun p hp => ?_, ih hrest⟩
        rcases mem_storeInsert hp with hp | hp
        · rw [hp]
          exact lt_of_le_of_ne (not_lt.mp h1) (Ne.symm h2)
        · exact hhead p hp

theorem storeInsert_keyed {s : Store} {k : ℚ} {v : Island}
    (hs : StoreKeyed s) (hk : k = v.ratio) : StoreKeyed (storeInsert s k v) := by
  intro p hp
  rcases mem_storeInsert hp with hp | hp
  · rw [hp]; exact hk
  · exact hs p hp

theorem storeDelete_sublist (s : Store) (k : ℚ) : (storeDelete s k).Sublist s := by
  induction s with
  | nil => simp [storeDelete]
  | cons q rest ih =>
    obtain ⟨k', v'⟩ := q
    simp only [storeDelete]
    split
    · exact List.sublist_cons_self _ _
    · exact List.Sublist.cons₂ _ ih

theorem storeDelete_sorted {s : Store} (k : ℚ) (hs : StoreSorted s) :
    StoreSorted (storeDelete s k) :=
  List.Pairwise.sublist (storeDelete_sublist s k) hs

theorem storeLookup_insert_self (s : Store) (k : ℚ) (v : Island) :
    storeLookup (storeInsert s k v) k = some v := by
  induction s with
  | nil => simp [storeInsert, storeLookup]
  | cons q rest ih =>
    obtain ⟨k', v'⟩ := q
    by_cases h1 : k < k'
    · simp [storeInsert, if_pos h1, storeLookup]
    · by_cases h2 : k = k'
      · simp [storeInsert, if_neg h1, if_pos h2, storeLookup]
      · simp only [storeInsert, if_neg h1, if_neg h2, storeLookup,
          if_neg (fun hh : k' = k => h2 hh.symm)]
        exact ih

theorem storeLookup_insert_ne (s : Store) {k k' : ℚ} (v : Island) (h : k' ≠ k) :
    storeLookup (storeInsert s k v) k' = storeLookup s k' := by
  induction s with
  | nil => simp [storeInsert, storeLookup, if_neg (fun hh : k = k' => h hh.symm)]
  | cons q rest ih =>
    obtain ⟨k₀, v₀⟩ := q
    by_cases h1 : k < k₀
    · simp only [storeInsert, if_pos h1, storeLookup,
        if_neg (fun hh : k = k' => h hh.symm)]
    · by_cases h2 : k = k₀
      · simp only [storeInsert, if_neg h1, if_pos h2, storeLookup,
          if_neg (fun hh : k = k' => h hh.symm),
          if_neg (fun hh : k₀ = k' => h (by rw [h2, hh]))]
      · simp only [storeInsert, if_neg h1, if_neg h2, storeLookup]
        by_cases h3 : k₀ = k'
        · rw [if_pos h3, if_pos h3]
        · rw [if_neg h3, if_neg h3]
          exact ih

theorem storeLookup_eq_none {s : Store} {k : ℚ} (h : ∀ p ∈ s, p.1 ≠ k) :
    storeLookup s k = none := by
  induction s with
  | nil => rfl
  | cons q rest ih =>
    obtain ⟨k', v'⟩ := q
    simp only [storeLookup, if_neg (h (k', v') (List.mem_cons_self _ _))]
    exact ih (fun p hp => h p (List.mem_cons_of_mem _ hp))

theorem storeLookup_mem {s : Store} {k : ℚ} {v : Island}
    (h : storeLookup s k = some v) : (k, v) ∈ s := by
  induction s with
  | nil => simp [storeLookup] at h
  | cons q rest ih =>
    obtain ⟨k', v'⟩ := q
    simp only [storeLookup] at h
    by_cases h1 : k' = k
    · rw [if_pos h1] at h
      obtain rfl : v' = v := by injection h
      rw [← h1]
      exact List.mem_cons_self _ _
    · rw [if_neg h1] at h
      exact List.mem_cons_of_mem _ (ih h)

theorem storeLookup_delete_self {s : Store} (k : ℚ) (hs : StoreSorted s) :
    storeLookup (storeDelete s k) k = none := by
  induction s with
  | nil => rfl
  | cons q rest ih =>
    obtain ⟨k', v'⟩ := q
    rw [StoreSorted, List.pairwise_cons] at hs
    obtain ⟨hhead, hrest⟩ := hs
    simp only [storeDelete]
    by_cases h1 : k = k'
    · rw [if_pos h1]
      exact storeLookup_eq_none (fun p hp => by rw [h1]; exact (hhead p hp).ne')
    · rw [if_neg h1]
      simp only [storeLookup, if_neg (fun hh : k' = k => h1 hh.symm)]
      exact ih hrest

theorem storeInsert_of_forall_lt {s : Store} {k : ℚ} (v : Island)
    (h : ∀ p ∈ s, k < p.1) : storeInsert s k v = (k, v) :: s := by
  cases s with
  | nil => rfl
  | cons q rest =>
    obtain ⟨k', v'⟩ := q
    simp only [storeInsert, if_pos (h (k', v') (List.mem_cons_self _ _))]

theorem storeInsert_storeDelete_cancel {s : Store} {k : ℚ} {v : Island}
    (hs : StoreSorted s) (hv : storeLookup s k = some v) :
    storeInsert (storeDelete s k) k v = s := by
  induction s with
  | nil => simp [storeLookup] at hv
  | cons q rest ih =>
    obtain ⟨k', v'⟩ := q
    rw [StoreSorted, List.pairwise_cons] at hs
    obtain ⟨hhead, hrest⟩ := hs
    by_cases h1 : k' = k
    · subst h1
      simp only [storeLookup, if_pos rfl] at hv
      obtain rfl : v' = v := by injection hv
      simp only [storeDelete, if_pos rfl]
      exact storeInsert_of_forall_lt _ hhead
    · simp only [storeLookup, if_neg h1] at hv
      have hklt : k' < k := hhead (k, v) (storeLookup_mem hv)
      simp only [storeDelete, if_neg (fun hh : k = k' => h1 hh.symm)]
      simp only [storeInsert, if_neg (not_lt.mpr hklt.le),
        if_neg (fun hh : k = k' => h1 hh.symm)]
      rw [ih hrest hv]

/-! ## C5: `update_island` moves the target to the new key -/

/-- C5: after `update_island(t, newMoney, newMarines)` on a target
currently indexed by a sorted store, the store contains the updated
target under the key `newMoney / newMarines`, and — when the new key
differs from the old one — no longer contains any entry under the old
key `t.money / t.marines`. The update is delete-old-key, mutate fields,
insert-new-key by definition of `update_island`. -/
theorem update_island_moves_key (store : Store) (t : Island) (newM : ℚ) (newD : ℤ)
    (hs : StoreSorted store)
    (hin : storeLookup store (t.money / (t.marines : ℚ)) = some t) :
    storeLookup (update_island store t newM newD) (newM / (newD : ℚ))
      = some { t with money := newM, marines := newD } ∧
    (newM / (newD : ℚ) ≠ t.money / (t.marines : ℚ) →
      storeLookup (update_island store t newM newD) (t.money / (t.marines : ℚ)) = none) := by
  constructor
  · exact storeLookup_insert_self _ _ _
  · intro hne
    unfold update_island
    rw [storeLookup_insert_ne _ _ (Ne.symm hne)]
    exact storeLookup_delete_self _ hs

/-- C5 witness: a concrete store with two targets, updating the first to
new field values. -/
theorem update_island_moves_key_witness :
    StoreSorted (buildStore [⟨"A", 4, 2⟩, ⟨"B", 9, 1⟩]) ∧
    storeLookup (buildStore [⟨"A", 4, 2⟩, ⟨"B", 9, 1⟩])
      ((4 : ℚ) / (((2 : ℤ)) : ℚ)) = some ⟨"A", 4, 2⟩ ∧
    storeLookup
      (update_island (buildStore [⟨"A", 4, 2⟩, ⟨"B", 9, 1⟩]) ⟨"A", 4, 2⟩ 5 1)
      ((5 : ℚ) / (((1 : ℤ)) : ℚ)) = some ⟨"A", 5, 1⟩ ∧
    storeLookup
      (update_island (buildStore [⟨"A", 4, 2⟩, ⟨"B", 9, 1⟩]) ⟨"A", 4, 2⟩ 5 1)
      ((4 : ℚ) / (((2 : ℤ)) : ℚ)) = none := by
  have hs : StoreSorted (buildStore [⟨"A", 4, 2⟩, ⟨"B", 9, 1⟩]) := by
    norm_num [buildStore, storeInsert, StoreSorted, List.pairwise_cons]
  have hin : storeLookup (buildStore [⟨"A", 4, 2⟩, ⟨"B", 9, 1⟩])
      (((⟨"A", 4, 2⟩ : Island).money) / (((⟨"A", 4, 2⟩ : Island).marines) : ℚ))
      = some ⟨"A", 4, 2⟩ := by
    norm_num [buildStore, storeInsert, storeLookup]
  have hmain := update_island_moves_key (buildStore [⟨"A", 4, 2⟩, ⟨"B", 9, 1⟩])
    ⟨"A", 4, 2⟩ 5 1 hs hin
  exact ⟨hs, hin, hmain.1, hmain.2 (by norm_num)⟩

/-! ## C8: a no-op update leaves the traversal order unchanged -/

/-- C8: `update_island(t, t.money, t.marines)` on a target currently
indexed by a sorted store leaves the store — and hence the descending
traversal that `select_islands`-style iteration uses — unchanged. -/
theorem update_island_noop (store : Store) (t : Island)
    (hs : StoreSorted store)
    (hin : storeLookup store (t.money / (t.marines : ℚ)) = some t) :
    update_island store t t.money t.marines = store ∧
    descend (update_island store t t.money t.marines) = descend store := by
  have h : update_island store t t.money t.marines = store := by
    unfold update_island
    have ht : ({ t with money := t.money, marines := t.marines } : Island) = t := rfl
    rw [ht]
    exact storeInsert_storeDelete_cancel hs hin
  exact ⟨h, by rw [h]⟩

/-- C8 witness: the same concrete store, no-op update of the first
target. -/
theorem update_island_noop_witness :
    StoreSorted (buildStore [⟨"A", 4, 2⟩, ⟨"B", 9, 1⟩]) ∧
    storeLookup (buildStore [⟨"A", 4, 2⟩, ⟨"B", 9, 1⟩])
      ((4 : ℚ) / (((2 : ℤ)) : ℚ)) = some ⟨"A", 4, 2⟩ ∧
    descend (update_island (buildStore [⟨"A", 4, 2⟩, ⟨"B", 9, 1⟩]) ⟨"A", 4, 2⟩ 4 2)
      = descend (buildStore [⟨"A", 4, 2⟩, ⟨"B", 9, 1⟩]) := by
  have hs : StoreSorted (buildStore [⟨"A", 4, 2⟩, ⟨"B", 9, 1⟩]) := by
    norm_num [buildStore, storeInsert, StoreSorted, List.pairwise_cons]
  have hin : storeLookup (buildStore [⟨"A", 4, 2⟩, ⟨"B", 9, 1⟩])
      (((⟨"A", 4, 2⟩ : Island).money) / (((⟨"A", 4, 2⟩ : Island).marines) : ℚ))
      = some ⟨"A", 4, 2⟩ := by
    norm_num [buildStore, storeInsert, storeLookup]
  exact ⟨hs, hin,
    (update_island_noop (buildStore [⟨"A", 4, 2⟩, ⟨"B", 9, 1⟩]) ⟨"A", 4, 2⟩ hs hin).2⟩

/-! ## `buildStore` invariants -/

theorem buildStoreFold_sorted_keyed (islands : List Island) :
    ∀ s : Store, StoreSorted s → StoreKeyed s →
      StoreSorted (islands.foldl (fun s i => storeInsert s (i.money / i.marines) i) s) ∧
      StoreKeyed (islands.foldl (fun s i => storeInsert s (i.money / i.marines) i) s) := by
  induction islands with
  | nil => intro s h1 h2; exact ⟨h1, h2⟩
  | cons i rest ih =>
    intro s h1 h2
    simp only [List.foldl_cons]
    exact ih _ (storeInsert_sorted _ _ h1) (storeInsert_keyed h2 rfl)

theorem buildStore_sorted (islands : List Island) : StoreSorted (buildStore islands) :=
  (buildStoreFold_sorted_keyed islands [] List.Pairwise.nil
    (fun p hp => absurd hp (List.not_mem_nil p))).1

theorem buildStore_keyed (islands : List Island) : StoreKeyed (buildStore islands) :=
  (buildStoreFold_sorted_keyed islands [] List.Pairwise.nil
    (fun p hp => absurd hp (List.not_mem_nil p))).2

theorem buildStoreFold_values (islands : List Island) :
    ∀ s : Store, ∀ p ∈ islands.foldl (fun s i => storeInsert s (i.money / i.marines) i) s,
      p ∈ s ∨ p.2 ∈ islands := by
  induction islands with
  | nil => intro s p hp; exact Or.inl hp
  | cons i rest ih =>
    intro s p hp
    simp only [List.foldl_cons] at hp
    rcases ih _ p hp with h | h
    · rcases mem_storeInsert h with h | h
      · refine Or.inr ?_
        rw [h]
        exact List.mem_cons_self _ _
      · exact Or.inl h
    · exact Or.inr (List.mem_cons_of_mem _ h)

theorem buildStore_values {islands : List Island} {p : ℚ × Island}
    (hp : p ∈ buildStore islands) : p.2 ∈ islands := by
  rcases buildStoreFold_values islands [] p hp with h | h
  · exact absurd h (List.not_mem_nil p)
  · exact h

theorem storeInsert_key_self (s : Store) (k : ℚ) (v : Island) :
    ∃ p ∈ storeInsert s k v, p.1 = k := by
  induction s with
  | nil => exact ⟨(k, v), List.mem_cons_self _ _, rfl⟩
  | cons q rest ih =>
    obtain ⟨k', v'⟩ := q
    by_cases h1 : k < k'
    · exact ⟨(k, v), by simp [storeInsert, if_pos h1], rfl⟩
    · by_cases h2 : k = k'
      · exact ⟨(k, v), by simp [storeInsert, if_neg h1, if_pos h2], rfl⟩
      · obtain ⟨p, hp, hpk⟩ := ih
        refine ⟨p, ?_, hpk⟩
        simp only [storeInsert, if_neg h1, if_neg h2]
        exact List.mem_cons_of_mem _ hp

theorem storeInsert_key_mem {s : Store} {k₀ : ℚ} (k : ℚ) (v : Island)
    (h : ∃ p ∈ s, p.1 = k₀) : ∃ p ∈ storeInsert s k v, p.1 = k₀ := by
  by_cases hk : k₀ = k
  · rw [hk]
    exact storeInsert_key_self s k v
  · induction s with
    | nil =>
      obtain ⟨p, hp, _⟩ := h
      exact absurd hp (List.not_mem_nil p)
    | cons q rest ih =>
      obtain ⟨k', v'⟩ := q
      obtain ⟨p, hp, hpk⟩ := h
      by_cases h1 : k < k'
      · exact ⟨p, by simp only [storeInsert, if_pos h1]; exact List.mem_cons_of_mem _ hp, hpk⟩
      · by_cases h2 : k = k'
        · rcases List.mem_cons.mp hp with hp | hp
          · exfalso
            apply hk
            rw [← hpk, hp, h2]
          · exact ⟨p, by
              simp only [storeInsert, if_neg h1, if_pos h2]
              exact List.mem_cons_of_mem _ hp, hpk⟩
        · rcases List.mem_cons.mp hp with hp | hp
          · refine ⟨p, ?_, hpk⟩
            simp only [storeInsert, if_neg h1, if_neg h2]
            rw [hp]
            exact List.mem_cons_self _ _
          · obtain ⟨p', hp', hpk'⟩ := ih ⟨p, hp, hpk⟩
            refine ⟨p', ?_, hpk'⟩
            simp only [storeInsert, if_neg h1, if_neg h2]
            exact List.mem_cons_of_mem _ hp'

theorem buildStoreFold_key_mem (islands : List Island) {k₀ : ℚ} :
    ∀ s : Store, (∃ p ∈ s, p.1 = k₀) →
      ∃ p ∈ islands.foldl (fun s i => storeInsert s (i.money / i.marines) i) s, p.1 = k₀ := by
  induction islands with
  | nil => intro s h; exact h
  | cons i rest ih =>
    intro s h
    simp only [List.foldl_cons]
    exact ih _ (storeInsert_key_mem _ _ h)

theorem buildStoreFold_key_of_mem (islands : List Island) {i : Island} :
    ∀ s : Store, i ∈ islands →
      ∃ p ∈ islands.foldl (fun s j => storeInsert s (j.money / j.marines) j) s,
        p.1 = i.money / (i.marines : ℚ) := by
  induction islands with
  | nil => intro s hi; exact absurd hi (List.not_mem_nil i)
  | cons j rest ih =>
    intro s hi
    simp only [List.foldl_cons]
    rcases List.mem_cons.mp hi with h | h
    · subst h
      exact buildStoreFold_key_mem rest _ (storeInsert_key_self s _ i)
    · exact ih _ h

theorem buildStore_key_of_mem {islands : List Island} {i : Island} (hi : i ∈ islands) :
    ∃ p ∈ buildStore islands, p.1 = i.money / (i.marines : ℚ) :=
  buildStoreFold_key_of_mem islands [] hi

theorem storeInsert_ne_nil (s : Store) (k : ℚ) (v : Island) : storeInsert s k v ≠ [] := by
  cases s with
  | nil => simp [storeInsert]
  | cons q rest =>
    obtain ⟨k', v'⟩ := q
    simp only [storeInsert]
    split
    · simp
    · split <;> simp

theorem buildStoreFold_ne_nil (islands : List Island) :
    ∀ s : Store, s ≠ [] →
      islands.foldl (fun s j => storeInsert s (j.money / j.marines) j) s ≠ [] := by
  induction islands with
  | nil => intro s h; exact h
  | cons j rest ih =>
    intro s _
    simp only [List.foldl_cons]
    exact ih _ (storeInsert_ne_nil _ _ _)

theorem buildStore_ne_nil {islands : List Island} (h : islands ≠ []) :
    buildStore islands ≠ [] := by
  obtain ⟨i, rest, rfl⟩ := List.exists_cons_of_ne_nil h
  unfold buildStore
  simp only [List.foldl_cons]
  exact buildStoreFold_ne_nil rest _ (storeInsert_ne_nil _ _ _)

/-- C7 amended: a negative crew size or crew pool is silently absorbed.
`select_islands` with a negative pool returns exactly one pair — the
highest-ratio target, with the negative pool as its `crewSent` — and
stops, and `simulate_day` with a negative per-agent crew returns
`(none, 0)` for every agent; no error is signalled. -/
theorem negative_crew_silently_absorbed (islands extra : List Island)
    (crew : ℤ) (n : ℕ) (hneg : crew < 0) (hne : islands ≠ [])
    (hmar : ∀ isl ∈ islands, 0 ≤ isl.marines) :
    (∃ top, select_islands (buildStore islands) crew = [(top, crew)] ∧
      ∀ isl ∈ islands, isl.ratio ≤ top.ratio) ∧
    simulate_day n extra crew = List.replicate n (none, 0) := by
  constructor
  · have hs := buildStore_sorted islands
    have hk := buildStore_keyed islands
    have hrevne : (buildStore islands).reverse ≠ [] := by
      simpa using buildStore_ne_nil hne
    obtain ⟨ptop, T, hcons⟩ := List.exists_cons_of_ne_nil hrevne
    have hdesc : descend (buildStore islands) = ptop.2 :: T.map Prod.snd := by
      unfold descend
      rw [hcons, List.map_cons]
    have hptopmem : ptop ∈ buildStore islands := by
      rw [← List.mem_reverse, hcons]
      exact List.mem_cons_self _ _
    have htopmar : 0 ≤ ptop.2.marines := hmar _ (buildStore_values hptopmem)
    refine ⟨ptop.2, ?_, ?_⟩
    · unfold select_islands
      rw [hdesc]
      simp only [selectIslandsGo]
      have htake : min crew ptop.2.marines = crew := min_eq_left (by omega)
      rw [htake, if_pos (by omega)]
    · intro isl hisl
      obtain ⟨p, hp, hpk⟩ := buildStore_key_of_mem hisl
      have hratio : isl.ratio = p.1 := by rw [hpk]; rfl
      have htopkey : ptop.1 = ptop.2.ratio := hk _ hptopmem
      rw [hratio, ← htopkey]
      have hrevp : p ∈ ptop :: T := by
        rw [← hcons, List.mem_reverse]
        exact hp
      rcases List.mem_cons.mp hrevp with h | h
      · rw [h]
      · have hpair : List.Pairwise (fun a b : ℚ × Island => b.1 < a.1)
            ((buildStore islands).reverse) := by
          rw [List.pairwise_reverse]
          exact hs
        rw [hcons, List.pairwise_cons] at hpair
        exact (hpair.1 p h).le
  · exact simGo_nonpos crew hneg.le n (mode2Filter extra)

/-- C7 amended, witness. -/
theorem negative_crew_silently_absorbed_witness :
    (-5 : ℤ) < 0 ∧ ([⟨"A", 7, 2⟩] : List Island) ≠ [] ∧
    (∀ isl ∈ ([⟨"A", 7, 2⟩] : List Island), 0 ≤ isl.marines) ∧
    ((∃ top, select_islands (buildStore [⟨"A", 7, 2⟩]) (-5) = [(top, -5)] ∧
        ∀ isl ∈ ([⟨"A", 7, 2⟩] : List Island), isl.ratio ≤ top.ratio) ∧
      simulate_day 3 [⟨"A", 7, 2⟩] (-5) = List.replicate 3 (none, 0)) :=
  ⟨by decide, by decide, by decide,
    negative_crew_silently_absorbed [⟨"A", 7, 2⟩] [⟨"A", 7, 2⟩] (-5) 3
      (by decide) (by decide) (by decide)⟩

/-! ## `select_islands` properties -/

theorem selectIslandsGo_fst_take (L : List Island) :
    ∀ crew : ℤ, (selectIslandsGo crew L).map Prod.fst
      = L.take ((selectIslandsGo crew L).length) := by
  induction L with
  | nil => intro crew; simp [selectIslandsGo]
  | cons isl rest ih =>
    intro crew
    simp only [selectIslandsGo]
    by_cases h : crew - min crew isl.marines ≤ 0
    · simp [h]
    · simp only [if_neg h, List.map_cons, List.length_cons, List.take_succ_cons]
      rw [ih]

theorem selectIslandsGo_sentOk (L : List Island) :
    ∀ crew : ℤ, sentOk crew (selectIslandsGo crew L) = true := by
  induction L with
  | nil => intro crew; rfl
  | cons isl rest ih =>
    intro crew
    simp only [selectIslandsGo]
    by_cases h : crew - min crew isl.marines ≤ 0
    · simp [h, sentOk]
    · simp only [if_neg h, sentOk]
      simp [ih]

theorem selectIslandsGo_sum_le (L : List Island) :
    ∀ crew : ℤ, 0 ≤ crew → ((selectIslandsGo crew L).map Prod.snd).sum ≤ crew := by
  induction L with
  | nil => intro crew hcrew; simpa [selectIslandsGo] using hcrew
  | cons isl rest ih =>
    intro crew hcrew
    simp only [selectIslandsGo]
    by_cases h : crew - min crew isl.marines ≤ 0
    · simp only [if_pos h, List.map_cons, List.map_nil, List.sum_cons, List.sum_nil, add_zero]
      exact min_le_left _ _
    · simp only [if_neg h, List.map_cons, List.sum_cons]
      have h0 : (0:ℤ) ≤ crew - min crew isl.marines := by omega
      have := ih (crew - min crew isl.marines) h0
      omega

theorem descend_ratio_pairwise {s : Store} (hs : StoreSorted s) (hk : StoreKeyed s) :
    ((descend s).map Island.ratio).Pairwise (· > ·) := by
  unfold descend
  rw [List.map_map, List.pairwise_map, List.pairwise_reverse]
  apply List.Pairwise.imp_of_mem ?_ hs
  intro a b ha hb hab
  have hka := hk a ha
  have hkb := hk b hb
  simp only [Function.comp]
  rw [← hka, ← hkb]
  exact hab

/-- C2: on a store built from targets with positive defender counts and a
non-negative crew pool, `select_islands` returns its pairs in strictly
descending ratio order, each `crewSent` equals
`min(remaining crew, that target's defenders)` (checked by `sentOk`), and
the `crewSent` values sum to at most the pool. -/
theorem select_islands_greedy (islands : List Island) (crew : ℤ)
    (hmar : ∀ isl ∈ islands, 0 < isl.marines) (hcrew : 0 ≤ crew) :
    ((select_islands (buildStore islands) crew).map (fun p => p.1.ratio)).Pairwise (· > ·) ∧
    sentOk crew (select_islands (buildStore islands) crew) = true ∧
    ((select_islands (buildStore islands) crew).map Prod.snd).sum ≤ crew := by
  refine ⟨?_, selectIslandsGo_sentOk _ crew, selectIslandsGo_sum_le _ crew hcrew⟩
  unfold select_islands
  have hL := descend_ratio_pairwise (buildStore_sorted islands) (buildStore_keyed islands)
  have hfst := selectIslandsGo_fst_take (descend (buildStore islands)) crew
  have hmapeq : (selectIslandsGo crew (descend (buildStore islands))).map (fun p => p.1.ratio)
      = ((descend (buildStore islands)).map Island.ratio).take
          ((selectIslandsGo crew (descend (buildStore islands))).length) := by
    rw [← List.map_take, ← hfst, List.map_map]
    rfl
  rw [hmapeq]
  exact hL.sublist (List.take_sublist _ _)

/-- C2 witness: the repository's own five targets and a pool of 200. -/
theorem select_islands_greedy_witness :
    (∀ isl ∈ ([⟨"C", 100, 5⟩, ⟨"A", 400, 100⟩] : List Island), 0 < isl.marines) ∧
    (0:ℤ) ≤ 50 ∧
    (((select_islands (buildStore [⟨"C", 100, 5⟩, ⟨"A", 400, 100⟩]) 50).map
        (fun p => p.1.ratio)).Pairwise (· > ·) ∧
      sentOk 50 (select_islands (buildStore [⟨"C", 100, 5⟩, ⟨"A", 400, 100⟩]) 50) = true ∧
      ((select_islands (buildStore [⟨"C", 100, 5⟩, ⟨"A", 400, 100⟩]) 50).map
        Prod.snd).sum ≤ 50) := by
  refine ⟨by decide, by decide, select_islands_greedy _ 50 (by decide) (by decide)⟩

/-! ## C10: zero crew still returns the top target -/

/-- C10: for every non-empty target set (with non-negative defender
counts), `select_islands` with a crew pool of `0` returns exactly one
pair: the highest-ratio target with a `crewSent` of `0` — the loop
appends the first visited target before checking exhaustion. -/
theorem select_islands_zero_crew (islands : List Island)
    (hne : islands ≠ []) (hmar : ∀ isl ∈ islands, 0 ≤ isl.marines) :
    ∃ top, select_islands (buildStore islands) 0 = [(top, 0)] ∧
      ∀ isl ∈ islands, isl.ratio ≤ top.ratio := by
  have hs := buildStore_sorted islands
  have hk := buildStore_keyed islands
  have hrevne : (buildStore islands).reverse ≠ [] := by
    simpa using buildStore_ne_nil hne
  obtain ⟨ptop, T, hcons⟩ := List.exists_cons_of_ne_nil hrevne
  have hdesc : descend (buildStore islands) = ptop.2 :: T.map Prod.snd := by
    unfold descend
    rw [hcons, List.map_cons]
  have hptopmem : ptop ∈ buildStore islands := by
    rw [← List.mem_reverse, hcons]
    exact List.mem_cons_self _ _
  have htopmar : 0 ≤ ptop.2.marines := hmar _ (buildStore_values hptopmem)
  refine ⟨ptop.2, ?_, ?_⟩
  · unfold select_islands
    rw [hdesc]
    simp only [selectIslandsGo]
    rw [min_eq_left htopmar, if_pos (by omega)]
  · intro isl hisl
    obtain ⟨p, hp, hpk⟩ := buildStore_key_of_mem hisl
    have hratio : isl.ratio = p.1 := by rw [hpk]; rfl
    have htopkey : ptop.1 = ptop.2.ratio := hk _ hptopmem
    rw [hratio, ← htopkey]
    have hrevp : p ∈ ptop :: T := by
      rw [← hcons, List.mem_reverse]
      exact hp
    rcases List.mem_cons.mp hrevp with h | h
    · rw [h]
    · have hpair : List.Pairwise (fun a b : ℚ × Island => b.1 < a.1)
          ((buildStore islands).reverse) := by
        rw [List.pairwise_reverse]
        exact hs
      rw [hcons, List.pairwise_cons] at hpair
      exact (hpair.1 p h).le

/-- C10 witness: two concrete targets, zero crew. -/
theorem select_islands_zero_crew_witness :
    ([⟨"C", 100, 5⟩, ⟨"A", 400, 100⟩] : List Island) ≠ [] ∧
    (∀ isl ∈ ([⟨"C", 100, 5⟩, ⟨"A", 400, 100⟩] : List Island), 0 ≤ isl.marines) ∧
    (∃ top, select_islands (buildStore [⟨"C", 100, 5⟩, ⟨"A", 400, 100⟩]) 0 = [(top, 0)] ∧
      ∀ isl ∈ ([⟨"C", 100, 5⟩, ⟨"A", 400, 100⟩] : List Island), isl.ratio ≤ top.ratio) :=
  ⟨by decide, by decide, select_islands_zero_crew _ (by decide) (by decide)⟩

/-! ## `simulate_day` invariants -/

/-- The raid-worthiness filter of the heap engine: positive defenders and
a ratio strictly above the 2-points-per-crew baseline. -/
def raidWorthy (isl : Island) : Prop :=
  0 < isl.marines ∧ 2 < isl.money / (isl.marines : ℚ)

theorem extractMax_mem {crew : ℤ} :
    ∀ {heap : List Island} {m : Island} {rest : List Island},
      extractMax crew heap = some (m, rest) →
      m ∈ heap ∧ ∀ x ∈ rest, x ∈ heap := by
  intro heap
  induction heap with
  | nil => intro m rest h; simp [extractMax] at h
  | cons x xs ih =>
    intro m rest h
    simp only [extractMax] at h
    cases hxs : extractMax crew xs with
    | none =>
      rw [hxs] at h
      dsimp only at h
      injection h with h1
      injection h1 with h2 h3
      subst h2
      subst h3
      exact ⟨List.mem_cons_self _ _, by simp⟩
    | some p =>
      obtain ⟨m', rest'⟩ := p
      rw [hxs] at h
      dsimp only at h
      by_cases hlt : mode2Priority crew x < mode2Priority crew m'
      · rw [if_pos hlt] at h
        injection h with h1
        injection h1 with h2 h3
        subst h2
        subst h3
        obtain ⟨hm, hr⟩ := ih hxs
        refine ⟨List.mem_cons_of_mem _ hm, fun y hy => ?_⟩
        rcases List.mem_cons.mp hy with hy | hy
        · rw [hy]; exact List.mem_cons_self _ _
        · exact List.mem_cons_of_mem _ (hr y hy)
      · rw [if_neg hlt] at h
        injection h with h1
        injection h1 with h2 h3
        subst h2
        subst h3
        exact ⟨List.mem_cons_self _ _, fun y hy => List.mem_cons_of_mem _ hy⟩

theorem extractMax_eq_none {crew : ℤ} {heap : List Island} :
    extractMax crew heap = none ↔ heap = [] := by
  constructor
  · intro h
    cases heap with
    | nil => rfl
    | cons x xs =>
      simp only [extractMax] at h
      cases hxs : extractMax crew xs with
      | none => rw [hxs] at h; exact absurd h (by simp)
      | some p =>
        obtain ⟨m', rest'⟩ := p
        rw [hxs] at h
        by_cases hlt : mode2Priority crew x < mode2Priority crew m' <;>
          simp [hlt] at h
  · intro h; rw [h]; rfl

theorem agentStep_heap_inv {crew : ℤ} {heap : List Island}
    (hinv : ∀ x ∈ heap, raidWorthy x) :
    ∀ x ∈ (agentStep crew heap).2, raidWorthy x := by
  unfold agentStep
  by_cases hc : 0 < crew
  · rw [if_pos hc]
    cases hex : extractMax crew heap with
    | none => simpa using hinv
    | some p =>
      obtain ⟨isl, rest⟩ := p
      obtain ⟨hm, hr⟩ := extractMax_mem hex
      simp only
      split
      · rename_i hcond
        intro x hx
        rcases List.mem_cons.mp hx with hx | hx
        · rw [hx]; exact hcond
        · exact hinv x (hr x hx)
      · intro x hx
        exact hinv x (hr x hx)
  · rw [if_neg hc]
    exact hinv

theorem agentStep_raided_worthy {crew : ℤ} {heap : List Island}
    (hinv : ∀ x ∈ heap, raidWorthy x) {t : Island}
    (ht : (agentStep crew heap).1.1 = some t) : raidWorthy t := by
  unfold agentStep at ht
  by_cases hc : 0 < crew
  · rw [if_pos hc] at ht
    cases hex : extractMax crew heap with
    | none => rw [hex] at ht; exact absurd ht (by simp)
    | some p =>
      obtain ⟨isl, rest⟩ := p
      rw [hex] at ht
      simp only at ht
      have heq : isl = t := by
        injection ht with h1
      rw [← heq]
      exact hinv isl (extractMax_mem hex).1
  · rw [if_neg hc] at ht
    exact absurd ht (by simp)

theorem mode2Filter_worthy (islands : List Island) :
    ∀ x ∈ mode2Filter islands, raidWorthy x := by
  intro x hx
  unfold mode2Filter at hx
  have := List.of_mem_filter hx
  simpa [raidWorthy] using this

theorem heapIter_inv (crew : ℤ) :
    ∀ (k : ℕ) (heap : List Island), (∀ x ∈ heap, raidWorthy x) →
      ∀ x ∈ heapIter crew k heap, raidWorthy x := by
  intro k
  induction k with
  | zero => intro heap hinv; exact hinv
  | succ n ih =>
    intro heap hinv
    exact ih _ (agentStep_heap_inv hinv)

theorem simGo_raided_worthy (crew : ℤ) :
    ∀ (n : ℕ) (heap : List Island), (∀ x ∈ heap, raidWorthy x) →
      ∀ pr ∈ simGo crew n heap, ∀ t : Island, pr.1 = some t → raidWorthy t := by
  intro n
  induction n with
  | zero => intro heap _ pr hpr; simp [simGo] at hpr
  | succ m ih =>
    intro heap hinv pr hpr t ht
    simp only [simGo] at hpr
    rcases List.mem_cons.mp hpr with hpr | hpr
    · rw [hpr] at ht
      exact agentStep_raided_worthy hinv ht
    · exact ih _ (agentStep_heap_inv hinv) pr hpr t ht

/-! ## C3: no unworthy target is ever raided or kept in the heap -/

/-- C3: in every run of `simulate_day`, every pair returned as a raid
carries a target which, at its selection, has `marines > 0` and ratio
`> 2` — a target with ratio `≤ 2` is never raided; and every heap state
reached during the day contains only such targets, so a target depleted
to `defenders ≤ 0` (or to ratio `≤ 2`) is never reinserted and never
raided again that day. -/
theorem simulate_day_worthy (n : ℕ) (islands : List Island) (crew : ℤ) :
    (∀ pr ∈ simulate_day n islands crew, ∀ t : Island, pr.1 = some t →
      0 < t.marines ∧ 2 < t.money / (t.marines : ℚ)) ∧
    (∀ (k : ℕ), ∀ t ∈ heapIter crew k (mode2Filter islands),
      0 < t.marines ∧ 2 < t.money / (t.marines : ℚ)) := by
  constructor
  · intro pr hpr t ht
    exact simGo_raided_worthy crew n (mode2Filter islands) (mode2Filter_worthy islands)
      pr hpr t ht
  · intro k t ht
    exact heapIter_inv crew k (mode2Filter islands) (mode2Filter_worthy islands) t ht

/-- C3 witness: one agent with crew 5 raids the single worthy target
`("A", 400, 100)`; the claim instantiated at that raid pair. -/
theorem simulate_day_worthy_witness :
    (some (⟨"A", 400, 100⟩ : Island), (5:ℤ)) ∈ simulate_day 1 [⟨"A", 400, 100⟩] 5 ∧
    (0 < (⟨"A", 400, 100⟩ : Island).marines ∧
      2 < (⟨"A", 400, 100⟩ : Island).money / ((⟨"A", 400, 100⟩ : Island).marines : ℚ)) := by
  have hmem : (some (⟨"A", 400, 100⟩ : Island), (5:ℤ)) ∈ simulate_day 1 [⟨"A", 400, 100⟩] 5 := by
    norm_num [simulate_day, simGo, mode2Filter, agentStep, extractMax, mode2Priority,
      engagePlunder, pyRound, pyInt]
  exact ⟨hmem, (simulate_day_worthy 1 [⟨"A", 400, 100⟩] 5).1 _ hmem _ rfl⟩

/-! ## C6: one pair per agent, `(none, 0)` exactly on empty heap or zero
crew -/

theorem simGo_length (crew : ℤ) :
    ∀ (n : ℕ) (heap : List Island), (simGo crew n heap).length = n := by
  intro n
  induction n with
  | zero => intro heap; rfl
  | succ m ih => intro heap; simp [simGo, ih]

theorem simGo_getD (crew : ℤ) :
    ∀ (n k : ℕ) (heap : List Island), k < n →
      (simGo crew n heap).getD k (none, 0)
        = (agentStep crew (heapIter crew k heap)).1 := by
  intro n
  induction n with
  | zero => intro k heap hk; omega
  | succ m ih =>
    intro k heap hk
    cases k with
    | zero => simp [simGo, heapIter]
    | succ j =>
      simp only [simGo, List.getD_cons_succ, heapIter]
      exact ih j _ (by omega)

theorem agentStep_none_iff {crew : ℤ} {heap : List Island} :
    (agentStep crew heap).1 = (none, 0) ↔ (heap = [] ∨ crew ≤ 0) := by
  constructor
  · intro h
    by_cases hc : 0 < crew
    · left
      unfold agentStep at h
      rw [if_pos hc] at h
      cases hex : extractMax crew heap with
      | none => exact extractMax_eq_none.mp hex
      | some p =>
        obtain ⟨isl, rest⟩ := p
        rw [hex] at h
        exfalso
        simp only at h
        injection h with h1 h2
        exact Option.noConfusion h1
    · right; omega
  · intro h
    unfold agentStep
    rcases h with h | h
    · rw [h]
      by_cases hc : 0 < crew
      · rw [if_pos hc]
        rfl
      · rw [if_neg hc]
    · rw [if_neg (by omega)]

/-- C6: `simulate_day` returns exactly one pair per agent (length equals
the pirate count fixed at construction), in agent order via the threaded
heap states, and for a non-negative per-agent crew the `k`-th agent's
pair is `(none, 0)` exactly when, at that agent's turn, the heap is empty
or the per-agent crew is `0`. -/
theorem simulate_day_shape (n : ℕ) (islands : List Island) (crew : ℤ)
    (hcrew : 0 ≤ crew) :
    (simulate_day n islands crew).length = n ∧
    ∀ k : ℕ, k < n →
      ((simulate_day n islands crew).getD k (none, 0) = (none, 0)
        ↔ (heapIter crew k (mode2Filter islands) = [] ∨ crew = 0)) := by
  refine ⟨simGo_length crew n _, fun k hk => ?_⟩
  unfold simulate_day
  rw [simGo_getD crew n k _ hk]
  rw [agentStep_none_iff]
  constructor
  · intro h
    rcases h with h | h
    · exact Or.inl h
    · exact Or.inr (by omega)
  · intro h
    rcases h with h | h
    · exact Or.inl h
    · exact Or.inr (by omega)

/-- C6 witness: three agents, one worthy target, crew 0 — every agent
gets `(none, 0)` because the crew is zero. -/
theorem simulate_day_shape_witness :
    (0:ℤ) ≤ 0 ∧
    ((simulate_day 3 [⟨"A", 400, 100⟩] 0).length = 3 ∧
      ∀ k : ℕ, k < 3 →
        ((simulate_day 3 [⟨"A", 400, 100⟩] 0).getD k (none, 0) = (none, 0)
          ↔ (heapIter 0 k (mode2Filter [⟨"A", 400, 100⟩]) = [] ∨ (0:ℤ) = 0))) :=
  ⟨le_refl 0, simulate_day_shape 3 [⟨"A", 400, 100⟩] 0 (le_refl 0)⟩

/-! ## C4: monotone results for non-decreasing request lists -/

/-- Sweep invariant: the finished plunder values followed by the running
accumulator are non-decreasing. -/
def sweepJ (st : SweepState) : Prop :=
  List.Chain' (· ≤ ·) (st.done.map Prod.fst ++ [st.acc])

/-- The original positions carried by a sweep state, in processing
order: finished, current, then pending. -/
def sweepSig (st : SweepState) : List ℕ :=
  st.done.map Prod.snd ++ st.curIdx :: st.pending.map Prod.snd

theorem chain'_append_last_mono {l : List ℤ} {a b : ℤ}
    (h : List.Chain' (· ≤ ·) (l ++ [a])) (hab : a ≤ b) :
    List.Chain' (· ≤ ·) (l ++ [b]) := by
  rw [List.chain'_append] at h ⊢
  refine ⟨h.1, List.chain'_singleton b, ?_⟩
  intro x hx y hy
  simp only [List.head?_cons, Option.mem_def, Option.some.injEq] at hy
  have hxa := h.2.2 x hx a (by simp)
  omega

theorem chain'_append_replicate {l : List ℤ} {a : ℤ} (n : ℕ)
    (h : List.Chain' (· ≤ ·) (l ++ [a])) :
    List.Chain' (· ≤ ·) (l ++ [a] ++ List.replicate n a) := by
  induction n with
  | zero => simpa using h
  | succ m ih =>
    have heq : l ++ [a] ++ List.replicate (m + 1) a
        = (l ++ [a] ++ List.replicate m a) ++ [a] := by
      rw [List.replicate_succ']
      simp
    rw [heq, List.chain'_append]
    refine ⟨ih, List.chain'_singleton a, ?_⟩
    intro x hx y hy
    simp only [List.head?_cons, Option.mem_def, Option.some.injEq] at hy
    have hlast : (l ++ [a] ++ List.replicate m a).getLast? = some a := by
      cases m with
      | zero => simp [List.getLast?_concat]
      | succ j =>
        rw [List.replicate_succ', ← List.append_assoc]
        exact List.getLast?_concat _
    rw [hlast] at hx
    simp only [Option.mem_def, Option.some.injEq] at hx
    omega

theorem chain'_concat_self {l : List ℤ} {a : ℤ}
    (h : List.Chain' (· ≤ ·) (l ++ [a])) :
    List.Chain' (· ≤ ·) (l ++ [a] ++ [a]) := by
  have h2 := chain'_append_replicate 1 h
  simpa using h2

theorem sweepJ_push {st : SweepState} {a' : ℤ} (hJ : sweepJ st) (ha : st.acc ≤ a') :
    List.Chain' (· ≤ ·) ((st.done ++ [(a', st.curIdx)]).map Prod.fst ++ [a']) := by
  have h1 : List.Chain' (· ≤ ·) (st.done.map Prod.fst ++ [a']) :=
    chain'_append_last_mono hJ ha
  have h2 := chain'_concat_self h1
  simpa [List.map_append] using h2

theorem islandLoop_inv :
    ∀ (f : ℕ) (m : ℚ) (d : ℤ) (st st' : SweepState) (b : Bool),
      0 ≤ d → sweepJ st → islandLoop f m d st = some (st', b) →
      sweepJ st' ∧
        (b = true → st'.pending = [] ∧ st'.done.map Prod.snd = sweepSig st) ∧
        (b = false → sweepSig st' = sweepSig st) := by
  intro f
  induction f with
  | zero =>
    intro m d st st' b _ _ h
    exact absurd h (by simp [islandLoop])
  | succ g ih =>
    intro m d st st' b hd hJ h
    simp only [islandLoop] at h
    by_cases hcond : 0 ≤ st.cur ∧ 0 < m
    · rw [if_pos hcond] at h
      by_cases hd0 : d = 0
      · rw [if_pos hd0] at h
        exact absurd h (by simp)
      · rw [if_neg hd0] at h
        have hdpos : 0 < d := lt_of_le_of_ne hd (Ne.symm hd0)
        have hplus : st.acc ≤ st.acc + engagePlunder st.cur m d := by
          have := engagePlunder_nonneg hcond.1 hcond.2 hdpos
          omega
        have hd' : (0:ℤ) ≤ d - min st.cur d := by
          have := min_le_right st.cur d
          omega
        by_cases hfin : st.cur - min st.cur d ≤ 0
        · rw [if_pos hfin] at h
          cases hpend : st.pending with
          | nil =>
            rw [hpend] at h
            dsimp only at h
            injection h with h1
            injection h1 with h2 h3
            subst h2
            subst h3
            refine ⟨?_, fun _ => ⟨?_, ?_⟩, fun hb => absurd hb (by simp)⟩
            · simpa [sweepJ] using sweepJ_push hJ hplus
            · simp [hpend]
            · simp [sweepSig, hpend]
          | cons q ps =>
            obtain ⟨sz, j⟩ := q
            rw [hpend] at h
            dsimp only at h
            obtain ⟨hJ', htrue, hfalse⟩ :=
              ih (m - engagePlunder st.cur m d) (d - min st.cur d) _ st' b hd'
                (by exact sweepJ_push hJ hplus) h
            refine ⟨hJ', ?_, ?_⟩
            · intro hb
              obtain ⟨hp, hsnd⟩ := htrue hb
              refine ⟨hp, ?_⟩
              rw [hsnd]
              simp [sweepSig, hpend]
            · intro hb
              rw [hfalse hb]
              simp [sweepSig, hpend]
        · rw [if_neg hfin] at h
          obtain ⟨hJ', htrue, hfalse⟩ :=
            ih (m - engagePlunder st.cur m d) (d - min st.cur d) _ st' b hd'
              (by exact chain'_append_last_mono hJ hplus) h
          refine ⟨hJ', ?_, ?_⟩
          · intro hb
            obtain ⟨hp, hsnd⟩ := htrue hb
            exact ⟨hp, hsnd⟩
          · intro hb
            exact hfalse hb
    · rw [if_neg hcond] at h
      injection h with h1
      injection h1 with h2 h3
      subst h2
      subst h3
      exact ⟨hJ, fun hb => absurd hb (by simp), fun _ => rfl⟩

theorem sweepIslands_inv :
    ∀ (L : List Island) (fuel : ℕ) (st st' : SweepState) (b : Bool),
      (∀ isl ∈ L, 0 ≤ isl.marines) → sweepJ st →
      sweepIslands fuel L st = some (st', b) →
      List.Chain' (· ≤ ·) ((finalPairs st' b).map Prod.fst) ∧
        (finalPairs st' b).map Prod.snd = sweepSig st := by
  intro L
  induction L with
  | nil =>
    intro fuel st st' b _ hJ h
    simp only [sweepIslands] at h
    injection h with h1
    injection h1 with h2 h3
    subst h2
    subst h3
    constructor
    · simp only [finalPairs, if_neg (by simp : ¬(false : Bool) = true)]
      have h2 := chain'_append_replicate st.pending.length hJ
      simpa [List.map_append, List.map_map, Function.comp_def, List.map_const'] using h2
    · simp only [finalPairs, if_neg (by simp : ¬(false : Bool) = true)]
      simp [sweepSig, List.map_append, List.map_map, Function.comp_def]
  | cons isl rest ihL =>
    intro fuel st st' b hmar hJ h
    simp only [sweepIslands] at h
    cases hloop : islandLoop fuel isl.money isl.marines st with
    | none =>
      rw [hloop] at h
      exact absurd h (by simp)
    | some p =>
      obtain ⟨st₁, b₁⟩ := p
      rw [hloop] at h
      dsimp only at h
      have hinv := islandLoop_inv fuel isl.money isl.marines st st₁ b₁
        (hmar isl (List.mem_cons_self _ _)) hJ hloop
      cases b₁ with
      | true =>
        rw [if_pos rfl] at h
        injection h with h1
        injection h1 with h2 h3
        subst h2
        subst h3
        obtain ⟨hpend, hsnd⟩ := hinv.2.1 rfl
        have hJ1 := hinv.1
        rw [sweepJ] at hJ1
        constructor
        · simp only [finalPairs, if_pos rfl]
          exact (List.chain'_append.mp hJ1).1
        · simp only [finalPairs, if_pos rfl]
          exact hsnd
      | false =>
        rw [if_neg (by simp : ¬(false : Bool) = true)] at h
        have hsig := hinv.2.2 rfl
        obtain ⟨hchain, hsnd⟩ := ihL fuel st₁ st' b
          (fun i hi => hmar i (List.mem_cons_of_mem _ hi)) hinv.1 h
        exact ⟨hchain, hsnd.trans hsig⟩

theorem take_set_append :
    ∀ (base : List ℤ) (i : ℕ) (v : ℤ), i < base.length →
      (base.set i v).take (i + 1) = base.take i ++ [v] := by
  intro base
  induction base with
  | nil =>
    intro i v h
    simp at h
  | cons x xs ih =>
    intro i v h
    cases i with
    | zero => simp
    | succ k =>
      simp only [List.set_cons_succ, List.take_succ_cons]
      rw [ih k v (by simpa using h)]
      simp

theorem remapFold_range' :
    ∀ (pairs : List (ℤ × ℕ)) (base : List ℤ) (i : ℕ),
      pairs.map Prod.snd = List.range' i pairs.length →
      base.length = i + pairs.length →
      pairs.foldl (fun out vj => out.set vj.2 vj.1) base
        = base.take i ++ pairs.map Prod.fst := by
  intro pairs
  induction pairs with
  | nil =>
    intro base i _ hlen
    simp only [List.length_nil, Nat.add_zero] at hlen
    simp only [List.map_nil, List.foldl_nil, List.append_nil]
    rw [← hlen, List.take_length]
  | cons q rest ih =>
    obtain ⟨v, jj⟩ := q
    intro base i hsnd hlen
    simp only [List.map_cons, List.length_cons] at hsnd hlen
    rw [List.range'_succ] at hsnd
    injection hsnd with h1 h2
    subst h1
    simp only [List.foldl_cons]
    rw [ih (base.set jj v) (jj + 1) h2 (by simp only [List.length_set]; omega)]
    rw [take_set_append base jj v (by omega)]
    simp

theorem remap_of_range {pairs : List (ℤ × ℕ)} {n : ℕ}
    (h : pairs.map Prod.snd = List.range n) :
    remap n pairs = pairs.map Prod.fst := by
  have hlen : pairs.length = n := by
    have h2 := congrArg List.length h
    simpa using h2
  unfold remap
  rw [remapFold_range' pairs (List.replicate n 0) 0
    (by rw [h, hlen, List.range_eq_range']) (by simp [hlen])]
  simp

/-- C4: for every target set with non-negative defender counts and every
non-decreasing list of crew sizes, every list returned by
`select_islands_from_crew_numbers` is non-decreasing position by
position: a larger or equal crew size never yields strictly less
plunder. -/
theorem select_for_sizes_monotone (fuel : ℕ) (store : Store) (crews : List ℤ)
    (out : List ℤ) (hmar : ∀ p ∈ store, 0 ≤ p.2.marines)
    (hmono : crews.Chain' (· ≤ ·))
    (h : select_islands_from_crew_numbers fuel store crews = some out) :
    out.Chain' (· ≤ ·) := by
  by_cases hnil : crews = []
  · subst hnil
    rw [select_for_sizes_empty] at h
    injection h with h1
    rw [← h1]
    exact List.chain'_nil
  · unfold select_islands_from_crew_numbers at h
    rw [if_neg hnil] at h
    dsimp only at h
    have hcond : (crews.enum.map (fun p => (p.2, p.1))).Chain'
        (fun a b => a.1 ≤ b.1) := by
      rw [List.chain'_map]
      have h2 : (crews.enum.map Prod.snd).Chain' (· ≤ ·) := by
        rw [List.enum_map_snd]
        exact hmono
      rwa [List.chain'_map] at h2
    rw [if_pos hcond] at h
    cases htag : crews.enum.map (fun p => (p.2, p.1)) with
    | nil =>
      exfalso
      apply hnil
      have hlen := congrArg List.length htag
      simp only [List.length_map, List.enum_length, List.length_nil] at hlen
      exact List.length_eq_zero.mp hlen
    | cons q ps =>
      obtain ⟨s, j⟩ := q
      rw [htag] at h
      dsimp only at h
      cases hsweep : sweepIslands fuel (descend store) ⟨s, j, 0, ps, [], 0⟩ with
      | none =>
        rw [hsweep] at h
        exact absurd h (by simp)
      | some p =>
        obtain ⟨st, broke⟩ := p
        rw [hsweep] at h
        dsimp only at h
        injection h with h1
        have hmar' : ∀ isl ∈ descend store, 0 ≤ isl.marines := by
          intro isl hisl
          unfold descend at hisl
          obtain ⟨p, hp, hpe⟩ := List.mem_map.mp hisl
          exact hpe ▸ hmar p (List.mem_reverse.mp hp)
        have hJ0 : sweepJ ⟨s, j, 0, ps, [], 0⟩ := by
          simp [sweepJ, List.chain'_singleton]
        obtain ⟨hchain, hsnd⟩ :=
          sweepIslands_inv (descend store) fuel _ st broke hmar' hJ0 hsweep
        have hsig : sweepSig (⟨s, j, 0, ps, [], 0⟩ : SweepState)
            = List.range crews.length := by
          have h3 : sweepSig (⟨s, j, 0, ps, [], 0⟩ : SweepState)
              = (crews.enum.map (fun p => (p.2, p.1))).map Prod.snd := by
            rw [htag]
            simp [sweepSig]
          rw [h3, List.map_map]
          have h4 : (Prod.snd ∘ fun p : ℕ × ℤ => (p.2, p.1)) = Prod.fst := rfl
          rw [h4, List.enum_map_fst]
        rw [← h1, remap_of_range (hsnd.trans hsig)]
        exact hchain

set_option maxHeartbeats 4000000 in
/-- C4 witness: the non-decreasing request list `[1, 2]` on the target
`("X", 1, 4)` evaluates to `[0, 0]`, which is non-decreasing. -/
theorem select_for_sizes_monotone_witness :
    (∀ p ∈ buildStore [(⟨"X", 1, 4⟩ : Island)], 0 ≤ p.2.marines) ∧
    ([1, 2] : List ℤ).Chain' (· ≤ ·) ∧
    select_islands_from_crew_numbers 16 (buildStore [⟨"X", 1, 4⟩]) [1, 2] = some [0, 0] ∧
    ([0, 0] : List ℤ).Chain' (· ≤ ·) := by
  have hm : ∀ p ∈ buildStore [(⟨"X", 1, 4⟩ : Island)], 0 ≤ p.2.marines := by
    norm_num [buildStore, storeInsert]
  have hc : ([1, 2] : List ℤ).Chain' (· ≤ ·) := by
    norm_num [List.chain'_cons, List.chain'_singleton]
  have heval : select_islands_from_crew_numbers 16 (buildStore [⟨"X", 1, 4⟩]) [1, 2]
      = some [0, 0] := by
    norm_num [select_islands_from_crew_numbers, buildStore, storeInsert, descend,
      sweepIslands, islandLoop, engagePlunder, pyRound, pyInt, finalPairs, remap,
      List.enum, List.enumFrom, List.replicate]
    all_goals (intro h; simp at h)
  exact ⟨hm, hc, heval,
    select_for_sizes_monotone 16 (buildStore [⟨"X", 1, 4⟩]) [1, 2] [0, 0] hm hc heval⟩

end Plunder
